import Mathlib

/-!
# Shallow embedding of the `retry` package

Durations are Go `time.Duration` values, i.e. signed 64-bit counts of
nanoseconds.  We model them as `ℤ`, with the constant `mathMaxInt64`
standing for `math.MaxInt64` at the points where the source checks for
overflow explicitly; all the overflow guards of the source are branch
conditions on the value, so the `ℤ` model is exact as long as no
intermediate result wraps, and the guarded branches are translated
as written.

`rand.Float64()` draws are modelled as exact rationals in `[0, 1)`;
the `float64` arithmetic of the source is modelled as exact rational
arithmetic, and Go's `int64(f)` conversion (truncation toward zero)
as `f64toInt64`.
-/

namespace Retry

/-- `math.MaxInt64`. -/
def mathMaxInt64 : ℤ := 9223372036854775807

/-- Source helper `minInt64`. -/
def minInt64 (a b : ℤ) : ℤ := if a < b then a else b

/-- Source helper `maxInt64`. -/
def maxInt64 (a b : ℤ) : ℤ := if a > b then a else b

/-- Go's `int64(f)` conversion of a `float64`: truncation toward zero. -/
def f64toInt64 (q : ℚ) : ℤ := if 0 ≤ q then ⌊q⌋ else ⌈q⌉

/-- Source constant `numUint64Bits = 64`. -/
def numUint64Bits : ℕ := 64

/-- Exported factory type `DecorrelatedExponentialBackoff` (fields of the
Go struct of the same name). -/
structure DecorrelatedExponentialBackoff where
  minWait : ℤ
  maxWait : ℤ
  deriving DecidableEq, Repr

/-- `NewDecorrelatedExponentialBackoff`. -/
def NewDecorrelatedExponentialBackoff (minWait maxWait : ℤ) :
    DecorrelatedExponentialBackoff :=
  { minWait := minWait, maxWait := maxWait }

/-- Unexported per-run state `decorrelatedExponentialBackoff` (the Go zero
value of `lastWait` is `0`). -/
structure decorrelatedExponentialBackoff where
  minWait : ℤ
  maxWait : ℤ
  lastWait : ℤ
  deriving DecidableEq, Repr

/-- `(*DecorrelatedExponentialBackoff).New`: a fresh per-run instance with
`lastWait` left at the zero value. -/
def DecorrelatedExponentialBackoff.New (b : DecorrelatedExponentialBackoff) :
    decorrelatedExponentialBackoff :=
  { minWait := b.minWait, maxWait := b.maxWait, lastWait := 0 }

/-- `(*decorrelatedExponentialBackoff).getDuration`, with the
`rand.Float64()` draw passed in as `r`.  Returns the duration together
with the state of the receiver after the call.  Note the source assigns
`b.lastWait` only in the first branch; the second branch leaves the
receiver untouched, so the state is returned unchanged there. -/
def decorrelatedExponentialBackoff.getDuration
    (b : decorrelatedExponentialBackoff) (r : ℚ) :
    ℤ × decorrelatedExponentialBackoff :=
  if b.lastWait = 0 then
    (b.minWait, { b with lastWait := b.minWait })
  else
    let mx : ℤ :=
      if b.lastWait > Int.tdiv mathMaxInt64 3 then mathMaxInt64
      else b.lastWait * 3
    let duration : ℤ :=
      minInt64 b.maxWait
        (f64toInt64 (r * ((mx : ℚ) - (b.minWait : ℚ)) + (b.minWait : ℚ)))
    (duration, b)

/-- Successive `getDuration` calls on one per-run instance, one call per
random draw in `rs`, threading the receiver state. -/
def getDurations (b : decorrelatedExponentialBackoff) (rs : List ℚ) :
    List ℤ :=
  match rs with
  | [] => []
  | r :: rest =>
    let step := b.getDuration r
    step.1 :: getDurations step.2 rest

/-- `ExponentialBackoff` (stateless; `jitter` as in the Go struct). -/
structure ExponentialBackoff where
  minWait : ℤ
  maxWait : ℤ
  jitter : Bool
  deriving DecidableEq, Repr

/-- `NewExponentialBackoff` (jitter on). -/
def NewExponentialBackoff (minWait maxWait : ℤ) : ExponentialBackoff :=
  { minWait := minWait, maxWait := maxWait, jitter := true }

/-- `(*ExponentialBackoff).getDuration`, with the `rand.Float64()` draw
passed in as `r` (unused when `jitter` is off).  In the source
`multiplier` is `int64(1) << iteration`; the guard has already ensured
`iteration ≤ 62`, so the shift equals `2 ^ iteration` with no wrap. -/
def ExponentialBackoff.getDuration (b : ExponentialBackoff)
    (iteration : ℕ) (r : ℚ) : ℤ :=
  if iteration ≥ numUint64Bits - 1 then b.maxWait
  else
    let multiplier : ℤ := 2 ^ iteration
    let duration : ℤ :=
      if b.minWait > Int.tdiv b.maxWait multiplier then b.maxWait
      else b.minWait * multiplier
    let duration2 : ℤ :=
      if b.jitter then f64toInt64 ((duration : ℚ) * (1/2 * (r + 1)))
      else duration
    maxInt64 duration2 b.minWait

/-- The backoff factory held by a `Retrier`, one constructor per concrete
factory of the source (the pause side effect itself is irrelevant to the
retry loop's result, so only the identity of the factory is modelled). -/
inductive BackoffFactory where
  | decorrelated (b : DecorrelatedExponentialBackoff)
  | exponential (b : ExponentialBackoff)
  | fixed (wait : ℤ)
  | functional
  deriving DecidableEq, Repr

/-- `DefaultBackoff`: decorrelated exponential from 500ms to 60s
(nanosecond counts, as in `time.Millisecond * 500` / `time.Second * 60`). -/
def DefaultBackoff : BackoffFactory :=
  .decorrelated (NewDecorrelatedExponentialBackoff (500 * 1000000) (60 * 1000000000))

/-- `defaultMaxAttempts`. -/
def defaultMaxAttempts : ℕ := 1

/-- `AnyErr`: true when the error is non-nil.  Go `error` results are
modelled as `Option ε`, `none` standing for `nil`. -/
def AnyErr {ε : Type} (err : Option ε) : Bool := err.isSome

/-- `Retrier`. -/
structure Retrier (ε : Type) where
  maxAttempts : ℕ
  isRetriable : Option ε → Bool
  backoffFactory : BackoffFactory

/-- `MaxAttemptsOption`. -/
def MaxAttemptsOption {ε : Type} (attempts : ℕ) : Retrier ε → Retrier ε :=
  fun r => { r with maxAttempts := attempts }

/-- `RetriableOption`. -/
def RetriableOption {ε : Type} (isRetriable : Option ε → Bool) :
    Retrier ε → Retrier ε :=
  fun r => { r with isRetriable := isRetriable }

/-- `BackoffOption`. -/
def BackoffOption {ε : Type} (backoff : BackoffFactory) :
    Retrier ε → Retrier ε :=
  fun r => { r with backoffFactory := backoff }

/-- `NewRetrier`: the defaults, then each option applied in order. -/
def NewRetrier {ε : Type} (options : List (Retrier ε → Retrier ε)) :
    Retrier ε :=
  options.foldl (fun r o => o r)
    { maxAttempts := defaultMaxAttempts
      isRetriable := AnyErr
      backoffFactory := DefaultBackoff }

/-- Observable trace of one `Do` call: the returned error, how many times
`fn` was invoked, the iteration indices passed to `backoff.Backoff` in
order, and how many times the factory's `New` was called. -/
structure DoTrace (ε : Type) where
  result : Option ε
  calls : ℕ
  backoffs : List ℕ
  newCalls : ℕ
  deriving Repr

/-- The loop of `(*Retrier).Do`.  The Go `fn` is a stateful closure; it is
determinized as `fn : ℕ → Option ε`, giving the result of its `k`-th
invocation (0-based).  `i` is the loop counter, `err` the last observed
error, `log` the backoff indices recorded so far. -/
def doAux {ε : Type} (maxAttempts : ℕ) (isRetriable : Option ε → Bool)
    (fn : ℕ → Option ε) (i : ℕ) (err : Option ε) (log : List ℕ) :
    Option ε × ℕ × List ℕ :=
  if h : i < maxAttempts then
    let e := fn i
    if isRetriable e then
      doAux maxAttempts isRetriable fn (i + 1) e
        (if i + 1 < maxAttempts then log ++ [i] else log)
    else (e, i + 1, log)
  else (err, i, log)
termination_by maxAttempts - i
decreasing_by omega

/-- `(*Retrier).Do`.  The source calls `r.backoffFactory.New()`
unconditionally before the loop, hence `newCalls := 1`. -/
def Retrier.Do {ε : Type} (r : Retrier ε) (fn : ℕ → Option ε) : DoTrace ε :=
  let out := doAux r.maxAttempts r.isRetriable fn 0 none []
  { result := out.1, calls := out.2.1, backoffs := out.2.2, newCalls := 1 }

theorem doAux_stop {ε : Type} (N : ℕ) (p : Option ε → Bool) (fn : ℕ → Option ε)
    (i : ℕ) (err : Option ε) (log : List ℕ) (h : ¬ i < N) :
    doAux N p fn i err log = (err, i, log) := by
  rw [doAux]
  simp [h]

theorem doAux_all_retriable {ε : Type} (N : ℕ) (p : Option ε → Bool)
    (fn : ℕ → Option ε) :
    ∀ (j i : ℕ) (err : Option ε) (log : List ℕ), N - i = j → i ≤ N →
      (∀ k, i ≤ k → k < N → p (fn k) = true) →
      doAux N p fn i err log =
        ((if i < N then fn (N - 1) else err), N, log ++ List.range' i (N - 1 - i)) := by
  intro j
  induction j with
  | zero =>
    intro i err log hj hi hp
    have hiN : i = N := by omega
    subst hiN
    have h0 : i - 1 - i = 0 := by omega
    rw [doAux]
    simp [h0]
  | succ j ih =>
    intro i err log hj hi hp
    have hlt : i < N := by omega
    have hpi : p (fn i) = true := hp i le_rfl hlt
    rw [doAux, dif_pos hlt]
    simp only [hpi, if_true]
    rw [ih (i + 1) (fn i) _ (by omega) (by omega)
      (fun k hk1 hk2 => hp k (by omega) hk2)]
    by_cases hi1 : i + 1 < N
    · have h1 : N - 1 - i = (N - 1 - (i + 1)) + 1 := by omega
      simp only [hi1, if_true, hlt, if_pos]
      rw [h1, List.range'_succ]
      simp
    · have hiN : i + 1 = N := by omega
      have h0 : N - 1 - i = 0 := by omega
      have h0' : N - 1 - (i + 1) = 0 := by omega
      have hN1 : N - 1 = i := by omega
      simp [hi1, hlt, h0, h0', hN1]

theorem doAux_first_nonretriable {ε : Type} (N K : ℕ) (p : Option ε → Bool)
    (fn : ℕ → Option ε) (hKN : K < N) :
    ∀ (j i : ℕ) (err : Option ε) (log : List ℕ), K - i = j → i ≤ K →
      (∀ k, i ≤ k → k < K → p (fn k) = true) → p (fn K) = false →
      doAux N p fn i err log = (fn K, K + 1, log ++ List.range' i (K - i)) := by
  intro j
  induction j with
  | zero =>
    intro i err log hj hi hp hpK
    have hiK : i = K := by omega
    subst hiK
    rw [doAux, dif_pos (by omega : i < N)]
    simp [hpK]
  | succ j ih =>
    intro i err log hj hi hp hpK
    have hiK : i < K := by omega
    have hpi : p (fn i) = true := hp i le_rfl hiK
    rw [doAux, dif_pos (by omega : i < N)]
    simp only [hpi, if_true]
    rw [if_pos (by omega : i + 1 < N)]
    rw [ih (i + 1) (fn i) (log ++ [i]) (by omega) (by omega)
      (fun k h1 h2 => hp k (by omega) h2) hpK]
    have h1 : K - i = (K - (i + 1)) + 1 := by omega
    rw [h1, List.range'_succ]
    simp

/-- C1: with `maxAttempts = N ≥ 1` and an operation whose every invocation
yields a retriable error, `Do` returns the last invocation's error
unmodified, invokes the operation exactly `N` times, and invokes the
backoff exactly `N - 1` times, at indices `0, …, N-2` in increasing order
and never after the final attempt. -/
theorem Do_exhausted_retries {ε : Type} (r : Retrier ε) (fn : ℕ → Option ε)
    (N : ℕ) (hN : r.maxAttempts = N) (h1 : 1 ≤ N)
    (herr : ∀ k, k < N → (fn k).isSome = true)
    (hret : ∀ k, k < N → r.isRetriable (fn k) = true) :
    (r.Do fn).result = fn (N - 1) ∧ (r.Do fn).calls = N ∧
      (r.Do fn).backoffs = List.range (N - 1) := by
  have h := doAux_all_retriable N r.isRetriable fn N 0 none [] rfl (by omega)
    (fun k hk1 hk2 => hret k hk2)
  simp only [Retrier.Do, hN, h]
  rw [if_pos (by omega : 0 < N)]
  simp [List.range_eq_range']

theorem Do_exhausted_retries_witness :
    ((NewRetrier [MaxAttemptsOption 2]).Do (fun _ => some 0)).result = some 0 ∧
    ((NewRetrier [MaxAttemptsOption 2]).Do (fun _ => some 0)).calls = 2 ∧
    ((NewRetrier [MaxAttemptsOption 2]).Do (fun _ => some 0)).backoffs = [0] := by
  have h := @Do_exhausted_retries ℕ (NewRetrier [MaxAttemptsOption 2])
    (fun _ => some 0) 2 rfl (by omega) (fun k hk => rfl) (fun k hk => rfl)
  exact ⟨h.1, h.2.1, by rw [h.2.2]; decide⟩

/-- C3: with `maxAttempts = N`, the default retriability predicate, and an
operation erroring on its first `K < N` invocations and then succeeding,
`Do` returns `nil` and the operation is invoked exactly `K + 1` times. -/
theorem Do_eventual_success {ε : Type} (r : Retrier ε) (fn : ℕ → Option ε)
    (N K : ℕ) (hN : r.maxAttempts = N) (hdef : r.isRetriable = AnyErr)
    (hK : K < N)
    (hfail : ∀ k, k < K → (fn k).isSome = true)
    (hsucc : fn K = none) :
    (r.Do fn).result = none ∧ (r.Do fn).calls = K + 1 := by
  have h := doAux_first_nonretriable N K r.isRetriable fn hK K 0 none [] rfl
    (by omega)
    (fun k h1 h2 => by rw [hdef]; unfold AnyErr; exact hfail k h2)
    (by rw [hdef, hsucc]; rfl)
  simp [Retrier.Do, hN, h, hsucc]

theorem Do_eventual_success_witness :
    ((NewRetrier [MaxAttemptsOption 3]).Do
        (fun k => if k = 0 then some 7 else none)).result = none ∧
    ((NewRetrier [MaxAttemptsOption 3]).Do
        (fun k => if k = 0 then some 7 else none)).calls = 2 := by
  have h := @Do_eventual_success ℕ (NewRetrier [MaxAttemptsOption 3])
    (fun k => if k = 0 then some 7 else none) 3 1 rfl rfl (by omega)
    (fun k hk => by interval_cases k <;> rfl) (by rfl)
  exact h

/-- C4: for any attempt whose result the predicate classifies as
non-retriable (the earlier attempts all being retriable), `Do` returns
that result immediately, after exactly `K + 1` invocations and backoffs
at indices `0, …, K-1` only; in particular a predicate that is constantly
false makes `Do` return the first invocation's result after exactly one
invocation and no backoff, for every `maxAttempts ≥ 1`. -/
theorem Do_nonretriable_immediate {ε : Type} (r : Retrier ε)
    (fn : ℕ → Option ε) (N K : ℕ)
    (hN : r.maxAttempts = N) (hK : K < N)
    (hbefore : ∀ k, k < K → r.isRetriable (fn k) = true)
    (hfalse : r.isRetriable (fn K) = false) :
    ((r.Do fn).result = fn K ∧ (r.Do fn).calls = K + 1 ∧
      (r.Do fn).backoffs = List.range K) ∧
    (∀ (r2 : Retrier ε) (fn2 : ℕ → Option ε),
      r2.isRetriable = (fun _ => false) → 1 ≤ r2.maxAttempts →
      (r2.Do fn2).result = fn2 0 ∧ (r2.Do fn2).calls = 1 ∧
        (r2.Do fn2).backoffs = []) := by
  constructor
  · have h := doAux_first_nonretriable N K r.isRetriable fn hK K 0 none [] rfl
      (by omega) (fun k h1 h2 => hbefore k h2) hfalse
    simp only [Retrier.Do, hN, h]
    simp [List.range_eq_range']
  · intro r2 fn2 hp2 h12
    have h := doAux_first_nonretriable r2.maxAttempts 0 r2.isRetriable fn2
      (by omega) 0 0 none [] rfl (by omega) (fun k h1 h2 => by omega)
      (by rw [hp2])
    simp [Retrier.Do, h]

theorem Do_nonretriable_immediate_witness :
    (((NewRetrier [MaxAttemptsOption 3,
        RetriableOption (fun _ => false)]).Do (fun _ => some 5)).result
      = some 5) ∧
    ((NewRetrier [MaxAttemptsOption 3,
        RetriableOption (fun _ => false)]).Do (fun _ => some 5)).calls = 1 ∧
    ((NewRetrier [MaxAttemptsOption 3,
        RetriableOption (fun _ => false)]).Do (fun _ => some 5)).backoffs
      = [] := by
  have h := @Do_nonretriable_immediate ℕ
    (NewRetrier [MaxAttemptsOption 3, RetriableOption (fun _ => false)])
    (fun _ => some 5) 3 0 rfl (by omega) (fun k hk => by omega) rfl
  simpa using h.1

/-- C9: with `maxAttempts = 0`, `Do` still calls the factory's `New` once
but returns `nil` without invoking the operation or the backoff. -/
theorem Do_zero_attempts {ε : Type} (r : Retrier ε) (fn : ℕ → Option ε)
    (h0 : r.maxAttempts = 0) :
    (r.Do fn).result = none ∧ (r.Do fn).calls = 0 ∧
      (r.Do fn).backoffs = [] ∧ (r.Do fn).newCalls = 1 := by
  have h := doAux_stop r.maxAttempts r.isRetriable fn 0 none [] (by omega)
  simp [Retrier.Do, h]

theorem Do_zero_attempts_witness :
    ((NewRetrier [MaxAttemptsOption 0]).Do (fun _ => some 1)).result = none ∧
    ((NewRetrier [MaxAttemptsOption 0]).Do (fun _ => some 1)).calls = 0 ∧
    ((NewRetrier [MaxAttemptsOption 0]).Do (fun _ => some 1)).backoffs = [] ∧
    ((NewRetrier [MaxAttemptsOption 0]).Do (fun _ => some 1)).newCalls = 1 :=
  @Do_zero_attempts ℕ (NewRetrier [MaxAttemptsOption 0]) (fun _ => some 1) rfl

/-- C8: a Retrier constructed with no options has `maxAttempts = 1`, the
predicate that holds exactly on non-nil errors, and the decorrelated
exponential backoff bounded by 500ms and 60s (in nanoseconds) as its
factory. -/
theorem NewRetrier_defaults (ε : Type) :
    (@NewRetrier ε []).maxAttempts = 1 ∧
    (∀ e : Option ε, (@NewRetrier ε []).isRetriable e = e.isSome) ∧
    (@NewRetrier ε []).backoffFactory =
      .decorrelated (NewDecorrelatedExponentialBackoff 500000000 60000000000) := by
  exact ⟨rfl, fun e => rfl, rfl⟩

theorem minInt64_eq_min (a b : ℤ) : minInt64 a b = min a b := by
  unfold minInt64
  split <;> omega

theorem maxInt64_eq_max (a b : ℤ) : maxInt64 a b = max a b := by
  unfold maxInt64
  split <;> omega

theorem mathMaxInt64_lt_two_pow {i : ℕ} (h : 63 ≤ i) :
    mathMaxInt64 < 2 ^ i := by
  calc mathMaxInt64 < 2 ^ 63 := by norm_num [mathMaxInt64]
  _ ≤ 2 ^ i := pow_le_pow_right₀ (by norm_num) h

/-- C5: without jitter, `getDuration(i) = min(maxWait, minWait * 2^i)`,
with every overflow detected before it happens; the value is always
positive (never negative or wrapped around).  The spec's table for
`minWait = 100`, `maxWait = 30000` is the instance `m = 100`, `M = 30000`
of this formula. -/
theorem exponential_no_jitter_formula (m M : ℤ) (i : ℕ) (r : ℚ)
    (hm : 0 < m) (hmM : m ≤ M) (hM : M ≤ mathMaxInt64) :
    ExponentialBackoff.getDuration ⟨m, M, false⟩ i r = min M (m * 2 ^ i) ∧
    0 < ExponentialBackoff.getDuration ⟨m, M, false⟩ i r := by
  have hpow : (0 : ℤ) < 2 ^ i := by positivity
  have hmpos : 0 < min M (m * 2 ^ i) := lt_min (by omega) (by positivity)
  have key : ExponentialBackoff.getDuration ⟨m, M, false⟩ i r
      = min M (m * 2 ^ i) := by
    unfold ExponentialBackoff.getDuration
    by_cases hi : i ≥ numUint64Bits - 1
    · rw [if_pos hi]
      have h63 : 63 ≤ i := hi
      have hlt : M < m * 2 ^ i := by
        have h1 : mathMaxInt64 < 2 ^ i := mathMaxInt64_lt_two_pow h63
        have h2 : (2 : ℤ) ^ i ≤ m * 2 ^ i := le_mul_of_one_le_left hpow.le hm
        omega
      rw [min_eq_left hlt.le]
    · rw [if_neg hi]
      have htd : Int.tdiv M (2 ^ i) = M / 2 ^ i :=
        Int.tdiv_eq_ediv (by omega) hpow.le
      by_cases hc : m > Int.tdiv M (2 ^ i)
      · have hlt : M < m * 2 ^ i := by
          rw [htd] at hc
          exact (Int.ediv_lt_iff_lt_mul hpow).mp hc
        simp only [hc, if_true, if_pos, Bool.false_eq_true, if_false,
          maxInt64_eq_max]
        rw [min_eq_left hlt.le, max_eq_left hmM]
      · have hle : m * 2 ^ i ≤ M := by
          rw [htd] at hc
          have := (Int.ediv_lt_iff_lt_mul hpow).not.mp hc
          omega
        have hself : m ≤ m * 2 ^ i :=
          le_mul_of_one_le_right hm.le (one_le_pow₀ (by norm_num))
        simp only [hc, if_false, Bool.false_eq_true, maxInt64_eq_max]
        rw [min_eq_right hle, max_eq_left hself]
  exact ⟨key, key ▸ hmpos⟩

theorem exponential_no_jitter_formula_witness :
    ExponentialBackoff.getDuration ⟨100, 30000, false⟩ 9 0 = 30000 ∧
    ExponentialBackoff.getDuration ⟨100, 30000, false⟩ 8 0 = 25600 := by
  have h9 := exponential_no_jitter_formula 100 30000 9 0 (by norm_num)
    (by norm_num) (by norm_num [mathMaxInt64])
  have h8 := exponential_no_jitter_formula 100 30000 8 0 (by norm_num)
    (by norm_num) (by norm_num [mathMaxInt64])
  constructor
  · rw [h9.1]; decide
  · rw [h8.1]; decide

/-- C7: with jitter enabled, the returned duration is the unjittered
value `d = min(maxWait, minWait * 2^i)` scaled by a factor in
`[1/2, 1)` and clamped from below to `minWait`, hence it lies in
`[d/2, d]` and never falls below `minWait`. -/
theorem exponential_jitter_range (m M : ℤ) (i : ℕ) (r : ℚ)
    (hm : 0 < m) (hmM : m ≤ M) (hM : M ≤ mathMaxInt64)
    (hr0 : 0 ≤ r) (hr1 : r < 1) :
    m ≤ ExponentialBackoff.getDuration ⟨m, M, true⟩ i r ∧
    min M (m * 2 ^ i) / 2 ≤ ExponentialBackoff.getDuration ⟨m, M, true⟩ i r ∧
    ExponentialBackoff.getDuration ⟨m, M, true⟩ i r ≤ min M (m * 2 ^ i) := by
  have hpow : (0 : ℤ) < 2 ^ i := by positivity
  have hself : m ≤ m * 2 ^ i :=
    le_mul_of_one_le_right hm.le (one_le_pow₀ (by norm_num))
  have hmd : m ≤ min M (m * 2 ^ i) := le_min hmM hself
  have hdpos : 0 < min M (m * 2 ^ i) := lt_of_lt_of_le hm hmd
  unfold ExponentialBackoff.getDuration
  dsimp only
  by_cases hi : i ≥ numUint64Bits - 1
  · rw [if_pos hi]
    have h63 : 63 ≤ i := hi
    have hlt : M < m * 2 ^ i := by
      have h1 : mathMaxInt64 < 2 ^ i := mathMaxInt64_lt_two_pow h63
      have h2 : (2 : ℤ) ^ i ≤ m * 2 ^ i := le_mul_of_one_le_left hpow.le hm
      omega
    rw [min_eq_left hlt.le]
    refine ⟨hmM, by omega, le_refl M⟩
  · rw [if_neg hi]
    have hcore : (if m > Int.tdiv M (2 ^ i) then M else m * 2 ^ i)
        = min M (m * 2 ^ i) := by
      have htd : Int.tdiv M (2 ^ i) = M / 2 ^ i :=
        Int.tdiv_eq_ediv (by omega) hpow.le
      by_cases hc : m > Int.tdiv M (2 ^ i)
      · have hlt : M < m * 2 ^ i := by
          rw [htd] at hc
          exact (Int.ediv_lt_iff_lt_mul hpow).mp hc
        rw [if_pos hc, min_eq_left hlt.le]
      · have hle : m * 2 ^ i ≤ M := by
          rw [htd] at hc
          have := (Int.ediv_lt_iff_lt_mul hpow).not.mp hc
          omega
        rw [if_neg hc, min_eq_right hle]
    simp only [hcore, if_true, maxInt64_eq_max]
    set d := min M (m * 2 ^ i) with hd
    have hq0 : (0 : ℚ) ≤ 1/2 * (r + 1) := by linarith
    have hq1 : 1/2 * (r + 1) ≤ 1 := by linarith
    have hd0Q : (0 : ℚ) ≤ (d : ℚ) := by exact_mod_cast hdpos.le
    have hdq : (0 : ℚ) ≤ (d : ℚ) * (1/2 * (r + 1)) := mul_nonneg hd0Q hq0
    unfold f64toInt64
    rw [if_pos hdq]
    have hfloor_le : ⌊(d : ℚ) * (1/2 * (r + 1))⌋ ≤ d := by
      have hle1 : (d : ℚ) * (1/2 * (r + 1)) ≤ (d : ℚ) := by nlinarith
      calc ⌊(d : ℚ) * (1/2 * (r + 1))⌋ ≤ ⌊(d : ℚ)⌋ := Int.floor_le_floor hle1
      _ = d := Int.floor_intCast d
    have hfloor_ge : d / 2 ≤ ⌊(d : ℚ) * (1/2 * (r + 1))⌋ := by
      rw [Int.le_floor]
      have h2 : (d / 2) * 2 ≤ d := Int.ediv_mul_le d (by norm_num)
      have h2Q : ((d / 2 : ℤ) : ℚ) * 2 ≤ (d : ℚ) := by exact_mod_cast h2
      nlinarith
    refine ⟨le_max_right _ _, le_trans hfloor_ge (le_max_left _ _),
      max_le hfloor_le hmd⟩

theorem exponential_jitter_range_witness :
    100 ≤ ExponentialBackoff.getDuration ⟨100, 30000, true⟩ 1 (1/2) ∧
    min 30000 (100 * 2 ^ 1) / 2
      ≤ ExponentialBackoff.getDuration ⟨100, 30000, true⟩ 1 (1/2) ∧
    ExponentialBackoff.getDuration ⟨100, 30000, true⟩ 1 (1/2)
      ≤ min 30000 (100 * 2 ^ 1) :=
  exponential_jitter_range 100 30000 1 (1/2) (by norm_num) (by norm_num)
    (by norm_num [mathMaxInt64]) (by norm_num) (by norm_num)

theorem tdiv_mathMaxInt64_three :
    Int.tdiv mathMaxInt64 3 = 3074457345618258602 := by decide

/-- One `getDuration` call in the steady state `⟨m, M, m⟩` the instance
reaches after its first call: the state is returned unchanged (the source
assigns `lastWait` only in the first-call branch) and the duration lies in
`[m, min M (3m - 1)]`. -/
theorem decorrelated_step (m M : ℤ) (r : ℚ)
    (hm : 0 < m) (hmM : m ≤ M) (hM : M ≤ mathMaxInt64)
    (hr0 : 0 ≤ r) (hr1 : r < 1) :
    (decorrelatedExponentialBackoff.getDuration ⟨m, M, m⟩ r).2 = ⟨m, M, m⟩ ∧
    m ≤ (decorrelatedExponentialBackoff.getDuration ⟨m, M, m⟩ r).1 ∧
    (decorrelatedExponentialBackoff.getDuration ⟨m, M, m⟩ r).1 ≤ M ∧
    (decorrelatedExponentialBackoff.getDuration ⟨m, M, m⟩ r).1 < 3 * m := by
  unfold decorrelatedExponentialBackoff.getDuration
  dsimp only
  rw [if_neg (by omega : ¬ m = 0)]
  dsimp only
  set mx : ℤ := if m > Int.tdiv mathMaxInt64 3 then mathMaxInt64 else m * 3
    with hmx
  have hmxm : m ≤ mx := by
    rw [hmx]
    split <;> omega
  have harg0 : (m : ℚ) ≤ r * ((mx : ℚ) - (m : ℚ)) + (m : ℚ) := by
    have : (0 : ℚ) ≤ (mx : ℚ) - (m : ℚ) := by
      rw [sub_nonneg]
      exact_mod_cast hmxm
    nlinarith
  have hargmx : r * ((mx : ℚ) - (m : ℚ)) + (m : ℚ) ≤ (mx : ℚ) := by
    have h1 : (0 : ℚ) ≤ (mx : ℚ) - (m : ℚ) := by
      rw [sub_nonneg]
      exact_mod_cast hmxm
    nlinarith
  have hpos : (0 : ℚ) ≤ r * ((mx : ℚ) - (m : ℚ)) + (m : ℚ) := by
    have : (0 : ℚ) < (m : ℚ) := by exact_mod_cast hm
    linarith
  unfold f64toInt64
  rw [if_pos hpos, minInt64_eq_min]
  have hfl : m ≤ ⌊r * ((mx : ℚ) - (m : ℚ)) + (m : ℚ)⌋ := Int.le_floor.mpr harg0
  have hfu : ⌊r * ((mx : ℚ) - (m : ℚ)) + (m : ℚ)⌋ ≤ mx := by
    calc ⌊r * ((mx : ℚ) - (m : ℚ)) + (m : ℚ)⌋ ≤ ⌊(mx : ℚ)⌋ :=
      Int.floor_le_floor hargmx
    _ = mx := Int.floor_intCast mx
  refine ⟨rfl, le_min hmM hfl, min_le_left _ _, ?_⟩
  by_cases hc : m > Int.tdiv mathMaxInt64 3
  · have hmxI : mx = mathMaxInt64 := by rw [hmx, if_pos hc]
    rw [tdiv_mathMaxInt64_three] at hc
    have hIval : mathMaxInt64 = 9223372036854775807 := rfl
    omega
  · have hmx3 : mx = m * 3 := by rw [hmx, if_neg hc]
    have hm2 : (0 : ℚ) < (mx : ℚ) - (m : ℚ) := by
      rw [hmx3]
      push_cast
      have : (0 : ℚ) < (m : ℚ) := by exact_mod_cast hm
      nlinarith
    have hstrict : r * ((mx : ℚ) - (m : ℚ)) + (m : ℚ) < (mx : ℚ) := by
      nlinarith
    have hflt : ⌊r * ((mx : ℚ) - (m : ℚ)) + (m : ℚ)⌋ < mx :=
      Int.floor_lt.mpr hstrict
    omega

/-- Every duration produced after the first call (instance in steady state
`⟨m, M, m⟩`) lies in `[m, M]` and below `3m`. -/
theorem getDurations_steady (m M : ℤ)
    (hm : 0 < m) (hmM : m ≤ M) (hM : M ≤ mathMaxInt64) :
    ∀ rs : List ℚ, (∀ r ∈ rs, 0 ≤ r ∧ r < 1) →
      ∀ d ∈ getDurations ⟨m, M, m⟩ rs, m ≤ d ∧ d ≤ M ∧ d < 3 * m := by
  intro rs
  induction rs with
  | nil => simp [getDurations]
  | cons r rest ih =>
    intro hrs d hd
    have hr := hrs r (by simp)
    have hstep := decorrelated_step m M r hm hmM hM hr.1 hr.2
    simp only [getDurations] at hd
    rw [hstep.1] at hd
    rcases List.mem_cons.mp hd with h | h
    · exact h ▸ ⟨hstep.2.1, hstep.2.2.1, hstep.2.2.2⟩
    · exact ih (fun x hx => hrs x (by simp [hx])) d h

theorem chain_of_steady (m M : ℤ) :
    ∀ ds : List ℤ, (∀ d ∈ ds, m ≤ d ∧ d ≤ M ∧ d < 3 * m) →
      ∀ a : ℤ, m ≤ a →
      List.Chain' (fun x y => m ≤ y ∧ y ≤ min M (3 * x)) (a :: ds) := by
  intro ds
  induction ds with
  | nil => intro _ a _; simp
  | cons d ds ih =>
    intro hall a ha
    have hd := hall d (by simp)
    refine List.Chain'.cons ⟨hd.1, le_min hd.2.1 (by omega)⟩ ?_
    exact ih (fun x hx => hall x (by simp [hx])) d hd.1

/-- C6: from a fresh factory instance with `0 < minWait ≤ maxWait`, the
first `getDuration` call returns exactly `minWait`, and every subsequent
call's duration lies in `[minWait, min(maxWait, 3 × previous duration)]`. -/
theorem decorrelated_first_min_and_bounds (m M : ℤ) (rs : List ℚ)
    (hm : 0 < m) (hmM : m ≤ M) (hM : M ≤ mathMaxInt64)
    (hrs : ∀ r ∈ rs, 0 ≤ r ∧ r < 1) :
    (∀ h : 0 < (getDurations
        ((NewDecorrelatedExponentialBackoff m M).New) rs).length,
      (getDurations ((NewDecorrelatedExponentialBackoff m M).New) rs).get
        ⟨0, h⟩ = m) ∧
    List.Chain' (fun a b => m ≤ b ∧ b ≤ min M (3 * a))
      (getDurations ((NewDecorrelatedExponentialBackoff m M).New) rs) := by
  cases rs with
  | nil =>
    constructor
    · intro h
      simp [getDurations] at h
    · simp [getDurations]
  | cons r rest =>
    have hstep0 : decorrelatedExponentialBackoff.getDuration
        ((NewDecorrelatedExponentialBackoff m M).New) r = (m, ⟨m, M, m⟩) := by
      unfold NewDecorrelatedExponentialBackoff
        DecorrelatedExponentialBackoff.New
        decorrelatedExponentialBackoff.getDuration
      simp
    have hfirst : getDurations ((NewDecorrelatedExponentialBackoff m M).New)
        (r :: rest) = m :: getDurations ⟨m, M, m⟩ rest := by
      simp only [getDurations, hstep0]
    rw [hfirst]
    refine ⟨fun h => rfl, ?_⟩
    exact chain_of_steady m M (getDurations ⟨m, M, m⟩ rest)
      (getDurations_steady m M hm hmM hM rest
        (fun x hx => hrs x (by simp [hx])))
      m le_rfl

theorem decorrelated_first_min_and_bounds_witness :
    List.Chain' (fun a b => 1 ≤ b ∧ b ≤ min 10 (3 * a))
      (getDurations ((NewDecorrelatedExponentialBackoff 1 10).New)
        [1/2, 1/2]) :=
  (decorrelated_first_min_and_bounds 1 10 [1/2, 1/2] (by norm_num)
    (by norm_num) (by norm_num [mathMaxInt64])
    (by intro r hr; fin_cases hr <;> norm_num)).2

/-- C10: with `minWait = 0`, every call (not just the first) takes the
first-call branch, because `lastWait` is compared against the zero
duration and is (re)set to `minWait = 0` there; every call returns `0`
and leaves the state unchanged. -/
theorem decorrelated_zero_min (M : ℤ) (rs : List ℚ) :
    (∀ r : ℚ, decorrelatedExponentialBackoff.getDuration
        ((NewDecorrelatedExponentialBackoff 0 M).New) r
      = (0, (NewDecorrelatedExponentialBackoff 0 M).New)) ∧
    getDurations ((NewDecorrelatedExponentialBackoff 0 M).New) rs
      = rs.map (fun _ => 0) := by
  have hN : (NewDecorrelatedExponentialBackoff 0 M).New
      = ⟨0, M, 0⟩ := rfl
  have hstep : ∀ r : ℚ, decorrelatedExponentialBackoff.getDuration
      ⟨0, M, 0⟩ r = (0, ⟨0, M, 0⟩) := by
    intro r
    unfold decorrelatedExponentialBackoff.getDuration
    simp
  refine ⟨fun r => by rw [hN, hstep r], ?_⟩
  rw [hN]
  induction rs with
  | nil => rfl
  | cons r rest ih =>
    unfold getDurations
    rw [hstep r]
    simpa using ih

/-- C2, behavior of the code at the failing input: for
`minWait = 100`, `maxWait = 30000`, the first call returns 100 and stores
`lastWait = 100`; the second call (random draw 3/4) returns 250, yet the
stored `lastWait` after that call is still 100, not 250 — the second
branch of `getDuration` never assigns `lastWait`, contradicting the
spec's (and the source comment's) recurrence
`sleep(n) = min(maxWait, random(minWait, sleep(n-1) * 3))`. -/
theorem decorrelated_lastWait_not_recorded :
    decorrelatedExponentialBackoff.getDuration
        ((NewDecorrelatedExponentialBackoff 100 30000).New) 0
      = (100, ⟨100, 30000, 100⟩) ∧
    decorrelatedExponentialBackoff.getDuration ⟨100, 30000, 100⟩ (3/4)
      = (250, ⟨100, 30000, 100⟩) ∧
    (250 : ℤ) ≠ (100 : ℤ) := by
  refine ⟨rfl, ?_, by norm_num⟩
  unfold decorrelatedExponentialBackoff.getDuration
  rw [if_neg (by norm_num), if_neg (by rw [tdiv_mathMaxInt64_three]; norm_num)]
  unfold f64toInt64 minInt64
  norm_num

theorem NewRetrier_defaults_witness :
    (@NewRetrier ℕ []).maxAttempts = 1 ∧
    (∀ e : Option ℕ, (@NewRetrier ℕ []).isRetriable e = e.isSome) ∧
    (@NewRetrier ℕ []).backoffFactory =
      .decorrelated (NewDecorrelatedExponentialBackoff 500000000 60000000000) :=
  NewRetrier_defaults ℕ

theorem decorrelated_zero_min_witness :
    (∀ r : ℚ, decorrelatedExponentialBackoff.getDuration
        ((NewDecorrelatedExponentialBackoff 0 7).New) r
      = (0, (NewDecorrelatedExponentialBackoff 0 7).New)) ∧
    getDurations ((NewDecorrelatedExponentialBackoff 0 7).New) [1/3, 2/3]
      = [0, 0] := by
  have h := decorrelated_zero_min 7 [1/3, 2/3]
  exact ⟨h.1, by rw [h.2]; rfl⟩

end Retry
